import Mathlib

/-!
Verification of the path-mapping and path-sanitization core of site2skill.

The embedded code lives in `src/site2skill/utils.py` (`sanitize_path`,
`html_to_md_path`) and `src/site2skill/main.py` (source-URL reconstruction,
lines 87-104).  Python strings are sequences of Unicode code points and are
modelled as `List Char`; `str.split` and `os.path.join` over `os.sep` are
modelled by `splitSep` and `joinSep` with separator `'/'`.
-/

namespace Site2Skill

/-- A Python string: a sequence of Unicode code points. -/
abbrev Str := List Char

/-- The path separator `os.sep` on the target (POSIX) platform. -/
def sep : Char := '/'

/-- Membership in the safe character class `[a-zA-Z0-9._-]` of the regex
`re.sub(r'[^a-zA-Z0-9._-]', '_', part)` used by `sanitize_path`. -/
def isSafeChar (c : Char) : Bool :=
  decide (('a' ≤ c ∧ c ≤ 'z') ∨ ('A' ≤ c ∧ c ≤ 'Z') ∨ ('0' ≤ c ∧ c ≤ '9') ∨
    c = '.' ∨ c = '_' ∨ c = '-')

/-- The per-character action of `re.sub(r'[^a-zA-Z0-9._-]', '_', part)`:
a character outside the safe class is replaced by an underscore. -/
def sanitizeChar (c : Char) : Char :=
  if isSafeChar c then c else '_'

/-- `re.sub(r'[^a-zA-Z0-9._-]', '_', part)` acts independently on each
code point of `part`. -/
def sanitizeSeg (s : Str) : Str := s.map sanitizeChar

/-- `path.split(os.sep)` on code-point sequences: `splitSep c []` is `[[]]`
exactly as Python's `"".split("/") == [""]`. -/
def splitSep (c : Char) : Str → List Str
  | [] => [[]]
  | d :: cs =>
    if d = c then [] :: splitSep c cs
    else List.modifyHead (fun e => d :: e) (splitSep c cs)

/-- `os.path.join(*parts)`: for the separator-free components produced by
`splitSep` this is interleaving the separator between the components. -/
def joinSep (c : Char) : List Str → Str
  | [] => []
  | [s] => s
  | s :: s₂ :: ss => s ++ c :: joinSep c (s₂ :: ss)

/-- The fixed fallback result `"file.md"` of `sanitize_path`. -/
def fileMd : Str := "file.md".toList

/-- The `sanitized_parts` list built by the loop of `sanitize_path`
(`src/site2skill/utils.py` lines 34-39): the non-empty components of
`path.split(os.sep)`, each with its unsafe characters replaced. -/
def sanitized_parts (path : Str) : List Str :=
  ((splitSep sep path).filter (fun p => !p.isEmpty)).map sanitizeSeg

/-- `sanitize_path` from `src/site2skill/utils.py`: split on `os.sep`, keep the
non-empty components, replace every unsafe character of each kept component by
an underscore, and rejoin with `os.path.join`; if nothing survives return
`"file.md"`. -/
def sanitize_path (path : Str) : Str :=
  if sanitized_parts path = [] then fileMd else joinSep sep (sanitized_parts path)

/-- The literal suffix `".html"` tested by `html_path.endswith('.html')`. -/
def htmlSuffix : Str := ".html".toList

/-- The literal suffix `".md"`. -/
def mdSuffix : Str := ".md".toList

/-- `html_to_md_path` from `src/site2skill/utils.py`: when the path ends in
`.html`, drop those five characters (`html_path[:-5]`) and append `.md`;
otherwise append `.md`. -/
def html_to_md_path (p : Str) : Str :=
  if htmlSuffix <:+ p then p.take (p.length - 5) ++ mdSuffix
  else p ++ mdSuffix

/-- `rel_path[:-5] if rel_path.endswith('.html') else rel_path` from
`src/site2skill/main.py` line 95. -/
def stripHtml (p : Str) : Str :=
  if htmlSuffix <:+ p then p.take (p.length - 5) else p

/-- The literal `"://"` of `f"{scheme}://{rel_path_for_url}"`. -/
def urlSep : Str := "://".toList

/-- The default scheme `"https"` used when the input URL supplies none
(`src/site2skill/main.py` line 88). -/
def defaultScheme : Str := "https".toList

/-- The spec's `mapPath` interface over `src/site2skill/main.py` lines 87-104:
the relative path, given as its sequence of segments, is the string
`rel_path = os.path.relpath(html_file, crawl_dir)` (the segments joined by
`os.sep`); the output Markdown path is `html_to_md_path(rel_path)` and the
reconstructed source URL is `f"{scheme}://{rel_path_for_url}"` with the
trailing `.html` stripped. -/
def mapPath (segs : List Str) (scheme : Str := defaultScheme) : Str × Str :=
  let rel := joinSep sep segs
  (html_to_md_path rel, scheme ++ urlSep ++ stripHtml rel)

/-! Concrete strings used by the spec's examples. -/

/-- The host segment of the spec's examples. -/
def exHost : Str := "docs.example.com".toList

/-- The directory segment `"a"` of the spec's examples. -/
def exSegA : Str := "a".toList

/-- The file segment `"index.html"` of the spec's examples. -/
def exIndexHtml : Str := "index.html".toList

/-- Expected output path for `["docs.example.com", "index.html"]`. -/
def exOutIdx : Str := "docs.example.com/index.md".toList

/-- Expected output path for `["docs.example.com", "a", "index.html"]`. -/
def exOutIdxA : Str := "docs.example.com/a/index.md".toList

/-- Expected source URL for `["docs.example.com", "index.html"]`. -/
def exUrlIdx : Str := "https://docs.example.com/index".toList

/-- Expected source URL for `["docs.example.com", "a", "index.html"]`. -/
def exUrlIdxA : Str := "https://docs.example.com/a/index".toList

/-- Sanitizer input of the spec's example. -/
def exSanIn : Str := "docs@example.com/api#v1/index.md".toList

/-- Sanitizer output of the spec's example. -/
def exSanOut : Str := "docs_example.com/api_v1/index.md".toList

/-- Absolute-path example input. -/
def exAbsIn : Str := "/absolute/path".toList

/-- Absolute-path example output. -/
def exAbsOut : Str := "absolute/path".toList

/-- A string consisting only of separators. -/
def exSlashes : Str := "///".toList

/-- A parent-directory traversal path. -/
def exTraversal : Str := "../secret/index.md".toList

/-- The parent-directory segment. -/
def exDotDot : Str := "..".toList

/-- The final segment of the sanitized example output. -/
def exIndexMd : Str := "index.md".toList

/-! Structural lemmas about `splitSep` and `joinSep`. -/

/-- `splitSep` always produces at least one component, as Python's `str.split`. -/
theorem splitSep_ne_nil (c : Char) (x : Str) : splitSep c x ≠ [] := by
  induction x with
  | nil => simp [splitSep]
  | cons d cs ih =>
    rw [splitSep]
    split
    · simp
    · rcases hsp : splitSep c cs with _ | ⟨e, es⟩
      · exact absurd hsp ih
      · simp [hsp]

/-- Splitting a separator-free string yields that single component. -/
theorem splitSep_not_mem (c : Char) (x : Str) (h : c ∉ x) : splitSep c x = [x] := by
  induction x with
  | nil => rfl
  | cons d cs ih =>
    have hd : ¬ d = c := fun he => h (he ▸ List.mem_cons_self d cs)
    rw [splitSep, if_neg hd, ih (fun hc => h (List.mem_cons_of_mem d hc))]
    rfl

/-- Splitting peels off a leading separator-free component. -/
theorem splitSep_append_sep (c : Char) (s r : Str) (h : c ∉ s) :
    splitSep c (s ++ c :: r) = s :: splitSep c r := by
  induction s with
  | nil => simp [splitSep]
  | cons d s' ih =>
    have hd : ¬ d = c := fun he => h (he ▸ List.mem_cons_self d s')
    rw [List.cons_append, splitSep, if_neg hd, ih (fun hc => h (List.mem_cons_of_mem d hc))]
    rfl

/-- Unfolding `joinSep` over a cons with a non-empty tail. -/
theorem joinSep_cons (c : Char) (s : Str) (t : List Str) (h : t ≠ []) :
    joinSep c (s :: t) = s ++ c :: joinSep c t := by
  cases t with
  | nil => exact absurd rfl h
  | cons s₂ ss => rfl

/-- `splitSep` is a left inverse of `joinSep` on non-empty lists of
separator-free components. -/
theorem splitSep_joinSep (c : Char) (l : List Str) (hne : l ≠ [])
    (hfree : ∀ s ∈ l, c ∉ s) : splitSep c (joinSep c l) = l := by
  induction l with
  | nil => exact absurd rfl hne
  | cons s t ih =>
    cases t with
    | nil => exact splitSep_not_mem c s (hfree s (List.mem_cons_self s []))
    | cons s₂ ss =>
      rw [joinSep_cons c s (s₂ :: ss) (by simp),
        splitSep_append_sep c s (joinSep c (s₂ :: ss)) (hfree s (List.mem_cons_self _ _)),
        ih (by simp) (fun x hx => hfree x (List.mem_cons_of_mem s hx))]

/-- `joinSep` is injective on non-empty lists of separator-free components. -/
theorem joinSep_inj (c : Char) (l₁ l₂ : List Str) (h₁ : l₁ ≠ []) (h₂ : l₂ ≠ [])
    (hf₁ : ∀ s ∈ l₁, c ∉ s) (hf₂ : ∀ s ∈ l₂, c ∉ s)
    (h : joinSep c l₁ = joinSep c l₂) : l₁ = l₂ := by
  have hc := congrArg (splitSep c) h
  rwa [splitSep_joinSep c l₁ h₁ hf₁, splitSep_joinSep c l₂ h₂ hf₂] at hc

/-- Unfolding `joinSep` over a final component. -/
theorem joinSep_concat (c : Char) (q : List Str) (a : Str) (hq : q ≠ []) :
    joinSep c (q ++ [a]) = joinSep c q ++ c :: a := by
  induction q with
  | nil => exact absurd rfl hq
  | cons s t ih =>
    cases t with
    | nil => rfl
    | cons s₂ ss =>
      rw [List.cons_append, joinSep_cons c s ((s₂ :: ss) ++ [a]) (by simp),
        ih (by simp), joinSep_cons c s (s₂ :: ss) (by simp)]
      simp [List.append_assoc]

/-- The final component is a suffix of the joined path. -/
theorem suffix_joinSep_last (c : Char) (l : List Str) (x : Str) :
    x <:+ joinSep c (l ++ [x]) := by
  induction l with
  | nil => exact List.suffix_refl x
  | cons s t ih =>
    rw [List.cons_append, joinSep_cons c s (t ++ [x]) (by simp)]
    exact ih.trans ((List.suffix_cons c _).trans (List.suffix_append s _))

/-- A separator-free string is a suffix of `J ++ c :: a` exactly when it is a
suffix of `a`: suffix tests never see across the last separator. -/
theorem suffix_middle_iff (c : Char) (s J a : Str) (hc : c ∉ s) :
    s <:+ J ++ c :: a ↔ s <:+ a := by
  constructor
  · intro h
    have hca : c :: a <:+ J ++ c :: a := List.suffix_append J (c :: a)
    by_cases hlen : s.length ≤ a.length
    · have ha : a <:+ J ++ c :: a := (List.suffix_cons c a).trans hca
      have h1 : s.reverse <+: (J ++ c :: a).reverse := List.reverse_prefix.mpr h
      have h2 : a.reverse <+: (J ++ c :: a).reverse := List.reverse_prefix.mpr ha
      have h3 := List.prefix_of_prefix_length_le h1 h2 (by simpa using hlen)
      exact List.reverse_prefix.mp h3
    · exfalso
      have hlen2 : (c :: a).reverse.length ≤ s.reverse.length := by
        simp only [List.length_reverse, List.length_cons]
        omega
      have h2 : (c :: a).reverse <+: (J ++ c :: a).reverse := List.reverse_prefix.mpr hca
      have h1 : s.reverse <+: (J ++ c :: a).reverse := List.reverse_prefix.mpr h
      have h3 := List.prefix_of_prefix_length_le h2 h1 hlen2
      exact hc ((List.reverse_prefix.mp h3).sublist.mem (List.mem_cons_self c a))
  · intro h
    exact h.trans ((List.suffix_cons c a).trans (List.suffix_append J (c :: a)))

/-- Taking past the last separator acts inside the final component. -/
theorem take_append_middle (J a : Str) (c : Char) (n : Nat) :
    (J ++ c :: a).take (J.length + 1 + n) = J ++ c :: a.take n := by
  rw [List.take_append_eq_append_take]
  have h1 : J.take (J.length + 1 + n) = J := List.take_of_length_le (by omega)
  have h2 : J.length + 1 + n - J.length = n + 1 := by omega
  rw [h1, h2, List.take_succ_cons]

/-! Behaviour of the extension rewriting across the last separator. -/

/-- `html_to_md_path` only rewrites the part after the last separator. -/
theorem html_to_md_path_after_sep (J a : Str) :
    html_to_md_path (J ++ sep :: a) = J ++ sep :: html_to_md_path a := by
  have hfree : sep ∉ htmlSuffix := by decide
  by_cases hs : htmlSuffix <:+ a
  · have hiff := (suffix_middle_iff sep htmlSuffix J a hfree).mpr hs
    have hlen : 5 ≤ a.length := by simpa [htmlSuffix] using hs.length_le
    rw [html_to_md_path, if_pos hiff, html_to_md_path, if_pos hs]
    have harith : (J ++ sep :: a).length - 5 = J.length + 1 + (a.length - 5) := by
      simp only [List.length_append, List.length_cons]
      omega
    rw [harith, take_append_middle]
    simp [List.append_assoc]
  · have hiff : ¬ htmlSuffix <:+ J ++ sep :: a :=
      fun h => hs ((suffix_middle_iff sep htmlSuffix J a hfree).mp h)
    rw [html_to_md_path, if_neg hiff, html_to_md_path, if_neg hs]
    simp [List.append_assoc]

/-- `stripHtml` only rewrites the part after the last separator. -/
theorem stripHtml_after_sep (J a : Str) :
    stripHtml (J ++ sep :: a) = J ++ sep :: stripHtml a := by
  have hfree : sep ∉ htmlSuffix := by decide
  by_cases hs : htmlSuffix <:+ a
  · have hiff := (suffix_middle_iff sep htmlSuffix J a hfree).mpr hs
    have hlen : 5 ≤ a.length := by simpa [htmlSuffix] using hs.length_le
    rw [stripHtml, if_pos hiff, stripHtml, if_pos hs]
    have harith : (J ++ sep :: a).length - 5 = J.length + 1 + (a.length - 5) := by
      simp only [List.length_append, List.length_cons]
      omega
    rw [harith, take_append_middle]
  · have hiff : ¬ htmlSuffix <:+ J ++ sep :: a :=
      fun h => hs ((suffix_middle_iff sep htmlSuffix J a hfree).mp h)
    rw [stripHtml, if_neg hiff, stripHtml, if_neg hs]

/-- The output path of `mapPath` rewrites only the final segment. -/
theorem mapPath_fst (q : List Str) (a : Str) (scheme : Str) :
    (mapPath (q ++ [a]) scheme).1 = joinSep sep (q ++ [html_to_md_path a]) := by
  cases q with
  | nil => rfl
  | cons s t =>
    show html_to_md_path (joinSep sep ((s :: t) ++ [a])) = _
    rw [joinSep_concat sep (s :: t) a (by simp), html_to_md_path_after_sep,
      joinSep_concat sep (s :: t) (html_to_md_path a) (by simp)]

/-- The source URL of `mapPath` strips `.html` only from the final segment. -/
theorem mapPath_snd (q : List Str) (a : Str) (scheme : Str) :
    (mapPath (q ++ [a]) scheme).2 = scheme ++ urlSep ++ joinSep sep (q ++ [stripHtml a]) := by
  cases q with
  | nil => rfl
  | cons s t =>
    show scheme ++ urlSep ++ stripHtml (joinSep sep ((s :: t) ++ [a])) = _
    rw [joinSep_concat sep (s :: t) a (by simp), stripHtml_after_sep,
      joinSep_concat sep (s :: t) (stripHtml a) (by simp)]

/-- `html_to_md_path` introduces no separator into a separator-free segment. -/
theorem html_to_md_path_sep_free (a : Str) (ha : sep ∉ a) : sep ∉ html_to_md_path a := by
  unfold html_to_md_path
  by_cases h : htmlSuffix <:+ a
  · rw [if_pos h]
    intro hc
    rcases List.mem_append.mp hc with hc | hc
    · exact ha (List.take_subset _ _ hc)
    · revert hc
      decide
  · rw [if_neg h]
    intro hc
    rcases List.mem_append.mp hc with hc | hc
    · exact ha hc
    · revert hc
      decide

/-! Lemmas about the sanitizer. -/

/-- Replacing an unsafe character always lands in the safe class. -/
theorem isSafeChar_sanitizeChar (c : Char) : isSafeChar (sanitizeChar c) = true := by
  unfold sanitizeChar
  by_cases h : isSafeChar c = true
  · rwa [if_pos h]
  · rw [if_neg h]
    decide

/-- A safe character is never the separator. -/
theorem safeChar_ne_sep (c : Char) (h : isSafeChar c = true) : c ≠ sep := by
  intro he
  subst he
  revert h
  decide

/-- Every character of a sanitized segment is safe. -/
theorem sanitizeSeg_safe (s : Str) (c : Char) (hc : c ∈ sanitizeSeg s) :
    isSafeChar c = true := by
  rcases List.mem_map.mp hc with ⟨d, _, rfl⟩
  exact isSafeChar_sanitizeChar d

/-- Sanitizing a segment of safe characters is the identity. -/
theorem sanitizeSeg_of_safe (s : Str) (h : ∀ c ∈ s, isSafeChar c = true) :
    sanitizeSeg s = s := by
  have hid : ∀ c ∈ s, sanitizeChar c = id c := fun c hc => by
    unfold sanitizeChar
    rw [if_pos (h c hc)]
    rfl
  rw [sanitizeSeg, List.map_congr_left hid, List.map_id]

/-- Per-character replacement preserves the segment length. -/
theorem sanitizeSeg_length (s : Str) : (sanitizeSeg s).length = s.length :=
  List.length_map s sanitizeChar

/-- A non-empty segment never becomes empty under sanitization. -/
theorem sanitizeSeg_ne_nil (s : Str) (h : s ≠ []) : sanitizeSeg s ≠ [] := by
  intro he
  apply h
  have hl := sanitizeSeg_length s
  rw [he] at hl
  exact List.eq_nil_of_length_eq_zero hl.symm

/-- A non-empty list is not `isEmpty`. -/
theorem not_isEmpty_of_ne_nil (s : Str) (h : s ≠ []) : (!s.isEmpty) = true := by
  cases s with
  | nil => exact absurd rfl h
  | cons a t => rfl

/-- Every kept component of `sanitized_parts` is non-empty. -/
theorem sanitized_parts_mem_ne_nil (x s : Str) (hs : s ∈ sanitized_parts x) : s ≠ [] := by
  rcases List.mem_map.mp hs with ⟨p, hp, rfl⟩
  have hpe := List.of_mem_filter hp
  apply sanitizeSeg_ne_nil
  intro he
  rw [he] at hpe
  exact Bool.noConfusion hpe

/-- Every character of every kept component of `sanitized_parts` is safe. -/
theorem sanitized_parts_mem_safe (x s : Str) (hs : s ∈ sanitized_parts x)
    (c : Char) (hc : c ∈ s) : isSafeChar c = true := by
  rcases List.mem_map.mp hs with ⟨p, _, rfl⟩
  exact sanitizeSeg_safe p c hc

/-- Splitting a non-fallback sanitized path recovers the kept components. -/
theorem splitSep_sanitize_path (x : Str) (h : sanitized_parts x ≠ []) :
    splitSep sep (sanitize_path x) = sanitized_parts x := by
  unfold sanitize_path
  rw [if_neg h]
  exact splitSep_joinSep sep _ h
    (fun s hs hc => safeChar_ne_sep sep (sanitized_parts_mem_safe x s hs sep hc) rfl)

/-- Sanitizing appends through a trailing safe literal such as `".md"`. -/
theorem sanitizeSeg_append_md (r : Str) :
    sanitizeSeg (r ++ mdSuffix) = sanitizeSeg r ++ mdSuffix := by
  unfold sanitizeSeg
  rw [List.map_append]
  congr 1

/-- The last component of splitting `t ++ m` for separator-free `m` carries the
whole of `m`. -/
theorem splitSep_append_of_not_mem (c : Char) (t m : Str) (hm : c ∉ m) :
    ∃ S r, splitSep c (t ++ m) = S ++ [r ++ m] := by
  induction t with
  | nil =>
    refine ⟨[], [], ?_⟩
    rw [List.nil_append, splitSep_not_mem c m hm, List.nil_append]
  | cons d t' ih =>
    rcases ih with ⟨S, r, hSr⟩
    by_cases hd : d = c
    · subst hd
      refine ⟨[] :: S, r, ?_⟩
      rw [List.cons_append, splitSep, if_pos rfl, hSr, List.cons_append]
    · cases S with
      | nil =>
        refine ⟨[], d :: r, ?_⟩
        rw [List.cons_append, splitSep, if_neg hd, hSr]
        rfl
      | cons s₀ S' =>
        refine ⟨(d :: s₀) :: S', r, ?_⟩
        rw [List.cons_append, splitSep, if_neg hd, hSr]
        rfl

/-- Sanitizing any path that ends in `".md"` yields a path ending in `".md"`. -/
theorem mdSuffix_sanitize_append (t : Str) :
    mdSuffix <:+ sanitize_path (t ++ mdSuffix) := by
  have hm : sep ∉ mdSuffix := by decide
  rcases splitSep_append_of_not_mem sep t mdSuffix hm with ⟨S, r, hSr⟩
  have hne : r ++ mdSuffix ≠ [] := by simp [mdSuffix]
  have hparts : sanitized_parts (t ++ mdSuffix)
      = (S.filter (fun p => !p.isEmpty)).map sanitizeSeg
        ++ [sanitizeSeg r ++ mdSuffix] := by
    unfold sanitized_parts
    rw [hSr, List.filter_append, List.map_append]
    congr 1
    rw [List.filter, not_isEmpty_of_ne_nil _ hne]
    rw [List.map_cons, sanitizeSeg_append_md]
    rfl
  have hkept : sanitized_parts (t ++ mdSuffix) ≠ [] := by
    rw [hparts]
    simp
  unfold sanitize_path
  rw [if_neg hkept, hparts]
  exact (List.suffix_append (sanitizeSeg r) mdSuffix).trans
    (suffix_joinSep_last sep _ _)

/-- Unfolding `sanitize_path` when some component survives. -/
theorem sanitize_path_eq_join (x : Str) (h : sanitized_parts x ≠ []) :
    sanitize_path x = joinSep sep (sanitized_parts x) := by
  unfold sanitize_path
  rw [if_neg h]

/-- Unfolding `sanitize_path` when no component survives. -/
theorem sanitize_path_eq_fallback (x : Str) (h : sanitized_parts x = []) :
    sanitize_path x = fileMd := by
  unfold sanitize_path
  rw [if_pos h]

/-! The claims. -/

/-- C1: for non-empty relative paths whose directory prefixes (the segment
sequences before the final segment) differ, the mapper's output paths differ
and the mapped (output path, source URL) pairs differ: the directory prefix is
carried into the output unchanged, so directory structure is preserved and
never flattened. -/
theorem mapPath_distinct_directory_prefixes (p₁ p₂ : List Str) (scheme : Str)
    (h₁ : p₁ ≠ []) (h₂ : p₂ ≠ [])
    (hf₁ : ∀ s ∈ p₁, sep ∉ s) (hf₂ : ∀ s ∈ p₂, sep ∉ s)
    (hd : p₁.dropLast ≠ p₂.dropLast) :
    (mapPath p₁ scheme).1 ≠ (mapPath p₂ scheme).1 ∧
    mapPath p₁ scheme ≠ mapPath p₂ scheme := by
  obtain ⟨q₁, a₁, rfl⟩ : ∃ q a, p₁ = q ++ [a] := by
    rcases List.eq_nil_or_concat p₁ with h | ⟨L, b, h⟩
    · exact absurd h h₁
    · exact ⟨L, b, by rw [h, List.concat_eq_append]⟩
  obtain ⟨q₂, a₂, rfl⟩ : ∃ q a, p₂ = q ++ [a] := by
    rcases List.eq_nil_or_concat p₂ with h | ⟨L, b, h⟩
    · exact absurd h h₂
    · exact ⟨L, b, by rw [h, List.concat_eq_append]⟩
  rw [List.dropLast_concat, List.dropLast_concat] at hd
  have key : (mapPath (q₁ ++ [a₁]) scheme).1 ≠ (mapPath (q₂ ++ [a₂]) scheme).1 := by
    intro he
    rw [mapPath_fst, mapPath_fst] at he
    have hfr₁ : ∀ s ∈ q₁ ++ [html_to_md_path a₁], sep ∉ s := by
      intro s hs
      rcases List.mem_append.mp hs with hs | hs
      · exact hf₁ s (List.mem_append_left [a₁] hs)
      · rcases List.mem_singleton.mp hs with rfl
        exact html_to_md_path_sep_free a₁
          (hf₁ a₁ (List.mem_append_right q₁ (List.mem_singleton_self a₁)))
    have hfr₂ : ∀ s ∈ q₂ ++ [html_to_md_path a₂], sep ∉ s := by
      intro s hs
      rcases List.mem_append.mp hs with hs | hs
      · exact hf₂ s (List.mem_append_left [a₂] hs)
      · rcases List.mem_singleton.mp hs with rfl
        exact html_to_md_path_sep_free a₂
          (hf₂ a₂ (List.mem_append_right q₂ (List.mem_singleton_self a₂)))
    have hinj := joinSep_inj sep _ _ (by simp) (by simp) hfr₁ hfr₂ he
    have hlen : q₁.length = q₂.length := by
      have hl := congrArg List.length hinj
      simp at hl
      omega
    exact hd (List.append_inj hinj (by simpa using hlen)).1
  exact ⟨key, fun hp => key (congrArg Prod.fst hp)⟩

/-- C1 witness at the spec's example paths. -/
theorem mapPath_distinct_directory_prefixes_witness :
    ([exHost, exIndexHtml] : List Str) ≠ [] ∧
    ([exHost, exSegA, exIndexHtml] : List Str) ≠ [] ∧
    (∀ s ∈ ([exHost, exIndexHtml] : List Str), sep ∉ s) ∧
    (∀ s ∈ ([exHost, exSegA, exIndexHtml] : List Str), sep ∉ s) ∧
    ([exHost, exIndexHtml] : List Str).dropLast
      ≠ ([exHost, exSegA, exIndexHtml] : List Str).dropLast ∧
    ((mapPath [exHost, exIndexHtml] defaultScheme).1
        ≠ (mapPath [exHost, exSegA, exIndexHtml] defaultScheme).1 ∧
      mapPath [exHost, exIndexHtml] defaultScheme
        ≠ mapPath [exHost, exSegA, exIndexHtml] defaultScheme) :=
  ⟨by decide, by decide, by decide, by decide, by decide,
    mapPath_distinct_directory_prefixes _ _ defaultScheme
      (by decide) (by decide) (by decide) (by decide) (by decide)⟩

/-- C2: the mapper's output-path rule: the final segment has a trailing
`.html` replaced by `.md`, or `.md` appended when there is none, while the
directory prefix is untouched; in particular the two `index.html` example
paths map to distinct output paths. -/
theorem mapPath_output_extension_rule (q : List Str) (a : Str) (scheme : Str) :
    (mapPath (q ++ [a]) scheme).1
      = joinSep sep (q ++ [if htmlSuffix <:+ a then a.take (a.length - 5) ++ mdSuffix
          else a ++ mdSuffix]) ∧
    (mapPath [exHost, exIndexHtml]).1 = exOutIdx ∧
    (mapPath [exHost, exSegA, exIndexHtml]).1 = exOutIdxA ∧
    (mapPath [exHost, exIndexHtml]).1 ≠ (mapPath [exHost, exSegA, exIndexHtml]).1 := by
  refine ⟨?_, by decide, by decide, by decide⟩
  rw [mapPath_fst]
  rfl

/-- C3: the reconstructed source URL is the scheme (default `"https"` when not
supplied), then `"://"`, then the relative path joined by `"/"` with a trailing
`.html` (when present) removed from the final segment; no URL-encoding is
applied. -/
theorem mapPath_source_url_rule (q : List Str) (a : Str) (scheme : Str) :
    (mapPath (q ++ [a]) scheme).2
      = scheme ++ urlSep
        ++ joinSep sep (q ++ [if htmlSuffix <:+ a then a.take (a.length - 5) else a]) ∧
    (mapPath [exHost, exSegA, exIndexHtml]).2 = exUrlIdxA ∧
    (mapPath [exHost, exIndexHtml]).2 = exUrlIdx := by
  refine ⟨?_, by decide, by decide⟩
  rw [mapPath_snd]
  rfl

/-- C4 counterexample: on the empty relative path the mapper does not fail
with an `InvalidInput` error: it returns the ordinary successful pair
`(".md", "https://")`. -/
theorem mapPath_empty_no_error :
    mapPath [] defaultScheme = (mdSuffix, defaultScheme ++ urlSep) := by
  decide

/-- C4 (amended): the mapper is total and never fails: on the empty path it
returns output path `".md"` and source URL `scheme ++ "://"` rather than an
`InvalidInput` error, and on every non-empty path it succeeds with the
extension and URL rules. -/
theorem mapPath_total (scheme : Str) (q : List Str) (a : Str) :
    mapPath [] scheme = (mdSuffix, scheme ++ urlSep) ∧
    mapPath (q ++ [a]) scheme
      = (joinSep sep (q ++ [html_to_md_path a]),
         scheme ++ urlSep ++ joinSep sep (q ++ [stripHtml a])) := by
  constructor
  · have hns : ¬ htmlSuffix <:+ ([] : Str) := by decide
    show (html_to_md_path (joinSep sep []), scheme ++ urlSep ++ stripHtml (joinSep sep []))
        = (mdSuffix, scheme ++ urlSep)
    rw [joinSep, html_to_md_path, if_neg hns, stripHtml, if_neg hns]
    simp
  · exact Prod.ext (mapPath_fst q a scheme) (mapPath_snd q a scheme)

/-- C5: sanitization splits on the separator, drops segments that were empty,
replaces every character outside the safe class with an underscore, and
rejoins; every segment of any output is non-empty and consists of safe
characters only, and the spec's example holds. -/
theorem sanitize_path_segment_rule :
    sanitize_path exSanIn = exSanOut ∧
    ∀ x s, s ∈ splitSep sep (sanitize_path x) →
      s ≠ [] ∧ ∀ c ∈ s, isSafeChar c = true := by
  refine ⟨by decide, ?_⟩
  intro x s hs
  by_cases h : sanitized_parts x = []
  · rw [sanitize_path_eq_fallback x h] at hs
    have hsplit : splitSep sep fileMd = [fileMd] := by decide
    rw [hsplit] at hs
    rcases List.mem_singleton.mp hs with rfl
    exact ⟨by decide, by decide⟩
  · rw [splitSep_sanitize_path x h] at hs
    exact ⟨sanitized_parts_mem_ne_nil x s hs,
      fun c hc => sanitized_parts_mem_safe x s hs c hc⟩

/-- C5 witness: the final segment of the sanitized example output. -/
theorem sanitize_path_segment_rule_witness :
    exIndexMd ∈ splitSep sep (sanitize_path exSanIn) ∧
    (exIndexMd ≠ [] ∧ ∀ c ∈ exIndexMd, isSafeChar c = true) :=
  ⟨by decide, sanitize_path_segment_rule.2 exSanIn exIndexMd (by decide)⟩

/-- C6: the sanitizer is total and never fails: the empty string, and more
generally any string with no surviving segment, yields the fixed fallback
`"file.md"`, and a leading empty segment is dropped. -/
theorem sanitize_path_total :
    sanitize_path [] = fileMd ∧
    sanitize_path exAbsIn = exAbsOut ∧
    ∀ x, (splitSep sep x).filter (fun p => !p.isEmpty) = [] →
      sanitize_path x = fileMd := by
  refine ⟨by decide, by decide, ?_⟩
  intro x hx
  apply sanitize_path_eq_fallback
  unfold sanitized_parts
  rw [hx]
  rfl

/-- C6 witness: a string of only separators has no surviving segment and
falls back to `"file.md"`. -/
theorem sanitize_path_total_witness :
    (splitSep sep exSlashes).filter (fun p => !p.isEmpty) = [] ∧
    sanitize_path exSlashes = fileMd :=
  ⟨by decide, sanitize_path_total.2.2 exSlashes (by decide)⟩

/-- C7: sanitization is idempotent: every character remaining in an output is
already in the safe class, so re-sanitizing returns the output unchanged,
including the fallback `"file.md"`. -/
theorem sanitize_path_idempotent (x : Str) :
    sanitize_path (sanitize_path x) = sanitize_path x := by
  by_cases h : sanitized_parts x = []
  · rw [sanitize_path_eq_fallback x h]
    decide
  · have hparts : sanitized_parts (sanitize_path x) = sanitized_parts x := by
      unfold sanitized_parts
      rw [splitSep_sanitize_path x h,
        List.filter_eq_self.mpr
          (fun s hs => not_isEmpty_of_ne_nil s (sanitized_parts_mem_ne_nil x s hs)),
        List.map_congr_left
          (fun s hs => sanitizeSeg_of_safe s
            (fun c hc => sanitized_parts_mem_safe x s hs c hc))]
      exact List.map_id _
    rw [sanitize_path_eq_join (sanitize_path x) (by rw [hparts]; exact h), hparts,
      ← sanitize_path_eq_join x h]

/-- C8: the `.md` extension boundary survives sanitization: every mapper
output path ends with `".md"`, and so does its sanitized form. -/
theorem md_suffix_survives (p : Str) (hp : p ≠ []) :
    mdSuffix <:+ html_to_md_path p ∧
    mdSuffix <:+ sanitize_path (html_to_md_path p) := by
  have h1 : mdSuffix <:+ html_to_md_path p := by
    unfold html_to_md_path
    by_cases h : htmlSuffix <:+ p
    · rw [if_pos h]
      exact List.suffix_append _ _
    · rw [if_neg h]
      exact List.suffix_append _ _
  refine ⟨h1, ?_⟩
  rcases h1 with ⟨t, ht⟩
  rw [← ht]
  exact mdSuffix_sanitize_append t

/-- C8 witness at `"index.html"`. -/
theorem md_suffix_survives_witness :
    exIndexHtml ≠ [] ∧
    (mdSuffix <:+ html_to_md_path exIndexHtml ∧
      mdSuffix <:+ sanitize_path (html_to_md_path exIndexHtml)) :=
  ⟨by decide, md_suffix_survives exIndexHtml (by decide)⟩

/-- C9 counterexample: for the empty input the claimed segment-count equality
fails: the output `"file.md"` has one segment while the input has zero
non-empty segments. -/
theorem sanitize_segment_count_empty :
    (splitSep sep (sanitize_path [])).length = 1 ∧
    ((splitSep sep ([] : Str)).filter (fun p => !p.isEmpty)).length = 0 := by
  decide

/-- C9 (amended): for every input with at least one non-empty segment, the
output segments are exactly the sanitized non-empty input segments in order,
and per-character replacement preserves segment length so none becomes empty;
hence the output's segment count equals the number of non-empty input
segments. (For inputs with no non-empty segment the output is the one-segment
fallback `"file.md"`.) -/
theorem sanitize_preserves_structure (x : Str)
    (h : (splitSep sep x).filter (fun p => !p.isEmpty) ≠ []) :
    splitSep sep (sanitize_path x)
      = ((splitSep sep x).filter (fun p => !p.isEmpty)).map sanitizeSeg ∧
    (splitSep sep (sanitize_path x)).length
      = ((splitSep sep x).filter (fun p => !p.isEmpty)).length ∧
    ∀ s ∈ (splitSep sep x).filter (fun p => !p.isEmpty),
      sanitizeSeg s ≠ [] ∧ (sanitizeSeg s).length = s.length := by
  have hk : sanitized_parts x ≠ [] := by
    unfold sanitized_parts
    intro he
    exact h (List.map_eq_nil_iff.mp he)
  refine ⟨splitSep_sanitize_path x hk, ?_, ?_⟩
  · rw [splitSep_sanitize_path x hk]
    exact List.length_map _ _
  · intro s hs
    have hne : s ≠ [] := by
      have hpe := List.of_mem_filter hs
      intro he
      rw [he] at hpe
      exact Bool.noConfusion hpe
    exact ⟨sanitizeSeg_ne_nil s hne, sanitizeSeg_length s⟩

/-- C9 witness at the sanitizer example input. -/
theorem sanitize_preserves_structure_witness :
    (splitSep sep exSanIn).filter (fun p => !p.isEmpty) ≠ [] ∧
    (splitSep sep (sanitize_path exSanIn)
        = ((splitSep sep exSanIn).filter (fun p => !p.isEmpty)).map sanitizeSeg ∧
      (splitSep sep (sanitize_path exSanIn)).length
        = ((splitSep sep exSanIn).filter (fun p => !p.isEmpty)).length ∧
      ∀ s ∈ (splitSep sep exSanIn).filter (fun p => !p.isEmpty),
        sanitizeSeg s ≠ [] ∧ (sanitizeSeg s).length = s.length) :=
  ⟨by decide, sanitize_preserves_structure exSanIn (by decide)⟩

/-- C10: sanitization does not neutralize parent-directory traversal: any
segment built only from safe characters, `".."` included, is returned
unchanged, and `sanitize_path "../secret/index.md"` is the identity;
containment within a root is not guaranteed by the sanitizer itself. -/
theorem sanitize_keeps_traversal :
    (∀ s : Str, (∀ c ∈ s, isSafeChar c = true) → sanitizeSeg s = s) ∧
    sanitize_path exTraversal = exTraversal :=
  ⟨fun s h => sanitizeSeg_of_safe s h, by decide⟩

/-- C10 witness: the `".."` segment is unchanged. -/
theorem sanitize_keeps_traversal_witness :
    (∀ c ∈ exDotDot, isSafeChar c = true) ∧ sanitizeSeg exDotDot = exDotDot :=
  ⟨by decide, sanitize_keeps_traversal.1 exDotDot (by decide)⟩

end Site2Skill
